import Mathlib

/-!
Shallow embedding of the crunchy password validator (Go).

Strings are modelled as lists of Unicode code points (Go runes).  Wherever the
Go code calls `len` on a string it measures UTF-8 bytes, so the embedding
carries an explicit UTF-8 byte-length function next to the code-point view.
Character classification tables (`unicode.IsLetter`, `unicode.IsUpper`,
`unicode.IsNumber`, `unicode.IsSpace`, `strings.ToLower`) are embedded
faithfully for the Latin-1 range (code points below 0x100); all concrete
inputs appearing in the theorems below stay inside that range.
-/

set_option maxHeartbeats 1000000

namespace Crunchy

/-- Go strings viewed as sequences of runes (Unicode code points). -/
abbrev Str := List Char

/-- UTF-8 encoding of a single code point, as the list of its bytes. -/
def utf8Bytes (c : Char) : List Nat :=
  let n := c.toNat
  if n < 128 then [n]
  else if n < 2048 then [192 + n / 64, 128 + n % 64]
  else if n < 65536 then [224 + n / 4096, 128 + (n / 64) % 64, 128 + n % 64]
  else [240 + n / 262144, 128 + (n / 4096) % 64, 128 + (n / 64) % 64, 128 + n % 64]

/-- UTF-8 encoding of a whole string: the byte sequence Go indexes into. -/
def encodeStr (s : Str) : List Nat := s.flatMap utf8Bytes

/-- Go `len(s)` on a string: the number of UTF-8 bytes, not code points. -/
def byteLen (s : Str) : Nat := (encodeStr s).length

/-- Embedding of Go `unicode.IsSpace` on the Latin-1 range:
tab through carriage return, space, NEL (U+0085) and NBSP (U+00A0). -/
def isSpaceChar (c : Char) : Bool :=
  (9 ≤ c.toNat && c.toNat ≤ 13) || c.toNat == 32 || c.toNat == 133 || c.toNat == 160

/-- Embedding of Go `strings.TrimSpace`: drop whitespace from both ends. -/
def trimSpace (s : Str) : Str :=
  ((s.dropWhile isSpaceChar).reverse.dropWhile isSpaceChar).reverse

/-- Embedding of Go `strings.ToLower` on one rune, for the Latin-1 range:
ASCII uppercase and the Latin-1 uppercase block C0..DE (except the
multiplication sign D7) map 32 code points down; everything else is fixed. -/
def toLowerChar (c : Char) : Char :=
  let n := c.toNat
  if 65 ≤ n ∧ n ≤ 90 then Char.ofNat (n + 32)
  else if 192 ≤ n ∧ n ≤ 222 ∧ n ≠ 215 then Char.ofNat (n + 32)
  else c

/-- Embedding of crunchy's `normalize`: `strings.TrimSpace(strings.ToLower(s))`. -/
def normalize (s : Str) : Str := trimSpace (s.map toLowerChar)

/-- Embedding of `countUniqueChars`: the number of distinct runes. -/
def countUniqueChars (s : Str) : Nat := s.dedup.length

/-- Helper for `countSystematicChars`: walks the tail with the previous rune at
hand and counts adjacent pairs whose code points differ by exactly one. -/
def countSystematicAux : Char → Str → Nat
  | _, [] => 0
  | prev, c :: rest =>
      (if (c.toNat : Int) = (prev.toNat : Int) + 1 ∨ (c.toNat : Int) = (prev.toNat : Int) - 1
       then 1 else 0) + countSystematicAux c rest

/-- Embedding of `countSystematicChars`: counts runes whose code point is one
above or one below their predecessor's. -/
def countSystematicChars : Str → Nat
  | [] => 0
  | c :: rest => countSystematicAux c rest

/-- Embedding of Go `unicode.IsLetter` on the Latin-1 range. -/
def isLetterChar (c : Char) : Bool :=
  let n := c.toNat
  (65 ≤ n && n ≤ 90) || (97 ≤ n && n ≤ 122) || n == 170 || n == 181 || n == 186 ||
  (192 ≤ n && n ≤ 214) || (216 ≤ n && n ≤ 246) || (248 ≤ n && n ≤ 255)

/-- Embedding of Go `unicode.IsUpper` on the Latin-1 range. -/
def isUpperChar (c : Char) : Bool :=
  let n := c.toNat
  (65 ≤ n && n ≤ 90) || (192 ≤ n && n ≤ 214) || (216 ≤ n && n ≤ 222)

/-- Embedding of Go `unicode.IsNumber` on the Latin-1 range: the ASCII digits
plus the superscripts and vulgar fractions of Latin-1. -/
def isNumberChar (c : Char) : Bool :=
  let n := c.toNat
  (48 ≤ n && n ≤ 57) || n == 178 || n == 179 || n == 185 ||
  n == 188 || n == 189 || n == 190

/-- ASCII decimal digit, as matched by the Go regexp `[0-9]+`. -/
def isAsciiDigit (c : Char) : Bool := 48 ≤ c.toNat && c.toNat ≤ 57

/-- Embedding of `regexp [0-9]+ MatchString`: some rune is an ASCII digit. -/
def hasDigit (s : Str) : Bool := s.any isAsciiDigit

/-- Word character of the Go regexp escape backslash-w: `[0-9A-Za-z_]`. -/
def isWordChar (c : Char) : Bool :=
  isAsciiDigit c || (65 ≤ c.toNat && c.toNat ≤ 90) ||
  (97 ≤ c.toNat && c.toNat ≤ 122) || c.toNat == 95

/-- Whitespace of the Go regexp escape backslash-s: tab, newline, form feed,
carriage return and space. -/
def isRegexSpace (c : Char) : Bool :=
  c.toNat == 9 || c.toNat == 10 || c.toNat == 12 || c.toNat == 13 || c.toNat == 32

/-- Embedding of the symbol requirement regexp: some rune is neither a word
character nor regexp whitespace. -/
def hasSymbol (s : Str) : Bool := s.any (fun c => !(isWordChar c || isRegexSpace c))

/-- Value of one hexadecimal digit, as accepted by Go `encoding/hex`. -/
def hexDigitVal (c : Char) : Option Nat :=
  let n := c.toNat
  if 48 ≤ n ∧ n ≤ 57 then some (n - 48)
  else if 97 ≤ n ∧ n ≤ 102 then some (n - 87)
  else if 65 ≤ n ∧ n ≤ 70 then some (n - 55)
  else none

/-- Embedding of Go `hex.DecodeString`: fails on an odd-length string or on any
non-hex rune, otherwise yields the decoded byte sequence. -/
def hexDecode : Str → Option (List Nat)
  | [] => some []
  | [_] => none
  | c1 :: c2 :: rest =>
      match hexDigitVal c1, hexDigitVal c2, hexDecode rest with
      | some hi, some lo, some bs => some ((16 * hi + lo) :: bs)
      | _, _, _ => none

/-- Unit-cost edit distance with an explicit fuel argument so that the
recursion is structural (the fuel strictly dominates the total length of the
two lists at every call, so the zero-fuel branch is never taken when the
function is entered through `wagnerFischer`). -/
def wfAux : Nat → List Nat → List Nat → Nat
  | _, [], ys => ys.length
  | _, x :: xs, [] => (x :: xs).length
  | 0, _ :: _, _ :: _ => 0
  | fuel + 1, x :: xs, y :: ys =>
      if x = y then wfAux fuel xs ys
      else 1 + min (wfAux fuel xs (y :: ys)) (min (wfAux fuel (x :: xs) ys) (wfAux fuel xs ys))

/-- Embedding of `smetrics.WagnerFischer(a, b, 1, 1, 1)`: the Levenshtein
distance (insertion, deletion, substitution each cost 1) over the UTF-8 bytes
of the two strings, which is what the Go library indexes. -/
def wagnerFischer (xs ys : List Nat) : Nat := wfAux (xs.length + ys.length) xs ys

/-- Closed taxonomy of rejection reasons.  `dictionary` and
`mangledDictionary` model Go's `DictionaryError` (they carry the matched word
and the measured distance), `hashedDictionary` models `HashedDictionaryError`. -/
inductive CheckErr where
  | empty
  | tooShort
  | tooFewChars
  | noDigits
  | noSymbols
  | tooSystematic
  | dictionary (word : Str) (dist : Nat)
  | mangledDictionary (word : Str) (dist : Nat)
  | hashedDictionary (word : Str)
  | breachedPassword
  | breachCheckFailed
deriving DecidableEq, Repr

/-- Modelled from the spec: the external haveibeenpwned breach oracle
(`foundInHIBP` lives outside src/) answers found, not found, or unreachable. -/
inductive HIBPResult where
  | found
  | notFound
  | unreachable
deriving DecidableEq, Repr

/-- Embedding of `Options`.  The dictionary path is replaced by the word
sequence the loader would produce (file globbing is an external collaborator),
hashers are the configured digest functions (`hash.Hash` is external, so a
hasher is just a function from a word to its digest bytes), and the breach
oracle is carried as a function (modelled from the spec, see `HIBPResult`). -/
structure Options where
  minLength : Int
  minDiff : Int
  minDist : Int
  hashers : List (Str → List Nat)
  mustContainDigit : Bool
  mustContainSymbol : Bool
  checkHIBP : Bool
  hibpOracle : Str → HIBPResult

/-- Embedding of the `Validator` with its built dictionary index.  Go's
`words` map is modelled as a duplicate-free list (membership is the only
observation the code makes besides iteration); `hashedWords` is modelled as an
association list where the most recent insertion is found first, matching the
last-write-wins semantics of Go map assignment. -/
structure Validator where
  options : Options
  wordsMaxLen : Nat
  words : List Str
  hashedWords : List (List Nat × Str)

/-- Modelled from the spec: `hashsum` (defined in the repository outside src/)
applies the configured digest function to the normalized word. -/
def hashsum (s : Str) (hasher : Str → List Nat) : List Nat := hasher s

/-- Embedding of `NewValidatorWithOpts`'s option normalization: out-of-range
values are silently replaced by the defaults. -/
def normalizeOpts (o : Options) : Options :=
  { o with
    minLength := if o.minLength ≤ 0 then 8 else o.minLength
    minDiff := if o.minDiff ≤ 0 then 5 else o.minDiff
    minDist := if o.minDist < 0 then 3 else o.minDist }

/-- Go map set-insertion for the `words` index: a no-op when already present. -/
def insertWord (ws : List Str) (w : Str) : List Str :=
  if w ∈ ws then ws else ws ++ [w]

/-- Find-first lookup in the modelled `hashedWords` association list. -/
def lookupHashed (hw : List (List Nat × Str)) (k : List Nat) : Option Str :=
  match hw.find? (fun e => decide (e.1 = k)) with
  | some e => some e.2
  | none => none

/-- Embedding of one loop iteration of `indexDictionaries`: normalize the word,
track the running maximum byte length, insert into `words` when the length
floor `minLength - minDist` is met, and record every configured hasher's
digest of the word in `hashedWords`. -/
def indexWord (v : Validator) (w : Str) : Validator :=
  let nw := normalize w
  let nwlen := byteLen nw
  { v with
    wordsMaxLen := if nwlen > v.wordsMaxLen then nwlen else v.wordsMaxLen
    words :=
      if (nwlen : Int) ≥ v.options.minLength - v.options.minDist
      then insertWord v.words nw else v.words
    hashedWords :=
      v.options.hashers.foldl (fun hw h => (hashsum nw h, nw) :: hw) v.hashedWords }

/-- Embedding of `indexDictionaries` over the word sequence the dictionary
loader produces. -/
def indexDictionaries (v : Validator) : List Str → Validator
  | [] => v
  | w :: rest => indexDictionaries (indexWord v w) rest

/-- A validator constructed by `NewValidatorWithOpts` whose one-time dictionary
build (`sync.Once`) has run over the given word sequence. -/
def mkValidator (o : Options) (src : List Str) : Validator :=
  indexDictionaries
    { options := normalizeOpts o, wordsMaxLen := 0, words := [], hashedWords := [] } src

/-- Exact-match stage of `foundInDictionaries`: skipped when the password is
longer (in bytes) than the longest indexed word; a hit on the password itself
is a `dictionary` error, a hit on its reversal a `mangledDictionary` error,
both with distance 0. -/
def exactStage (v : Validator) (pw revpw : Str) : Option CheckErr :=
  if byteLen pw ≤ v.wordsMaxLen then
    if pw ∈ v.words then some (.dictionary pw 0)
    else if revpw ∈ v.words then some (.mangledDictionary revpw 0)
    else none
  else none

/-- Hashed-dictionary stage of `foundInDictionaries`: only consulted when the
normalized password decodes as a hexadecimal byte string. -/
def hashedStage (v : Validator) (pw : Str) : Option CheckErr :=
  match hexDecode pw with
  | some bytes =>
      match lookupHashed v.hashedWords bytes with
      | some word => some (.hashedDictionary word)
      | none => none
  | none => none

/-- Fuzzy scan loop of `foundInDictionaries`: for each indexed word, first the
password and then its reversal are compared against the configured minimum
distance; the first qualifying word is returned with its measured distance. -/
def fuzzyScan (minDist : Int) (pw revpw : Str) : List Str → Option CheckErr
  | [] => none
  | w :: ws =>
      let d1 := wagnerFischer (encodeStr w) (encodeStr pw)
      if (d1 : Int) ≤ minDist then some (.mangledDictionary w d1)
      else
        let d2 := wagnerFischer (encodeStr w) (encodeStr revpw)
        if (d2 : Int) ≤ minDist then some (.mangledDictionary w d2)
        else fuzzyScan minDist pw revpw ws

/-- Fuzzy stage of `foundInDictionaries`, gated by
`len(pw) <= wordsMaxLen + minDist`. -/
def fuzzyStage (v : Validator) (pw revpw : Str) : Option CheckErr :=
  if (byteLen pw : Int) ≤ (v.wordsMaxLen : Int) + v.options.minDist then
    fuzzyScan v.options.minDist pw revpw v.words
  else none

/-- Embedding of `foundInDictionaries`: exact matches first, then the hashed
lookup, then the fuzzy scan, each stage short-circuiting the next. -/
def foundInDictionaries (v : Validator) (s : Str) : Option CheckErr :=
  let pw := normalize s
  let revpw := pw.reverse
  match exactStage v pw revpw with
  | some e => some e
  | none =>
      match hashedStage v pw with
      | some e => some e
      | none => fuzzyStage v pw revpw

/-- Modelled from the spec: `foundInHIBP` (outside src/) consults the breach
oracle and surfaces found and unreachable as distinct errors. -/
def foundInHIBP (o : Options) (p : Str) : Option CheckErr :=
  match o.hibpOracle p with
  | .found => some .breachedPassword
  | .notFound => none
  | .unreachable => some .breachCheckFailed

/-- Systematic-character tolerance `int(3.0 + 0.09 * float64(len(password)))`.
The float64 computation rounds to the same truncated value as exact rational
arithmetic for every attainable string length, so it is embedded as exact
integer arithmetic. -/
def sysLimit (len : Nat) : Nat := 3 + 9 * len / 100

/-- Embedding of `Validator.Check`: the six structural checks in their fixed
order, then the dictionary stages, then (when enabled) the breach oracle. -/
def Check (v : Validator) (password : Str) : Option CheckErr :=
  if trimSpace password = [] then some .empty
  else if (byteLen password : Int) < v.options.minLength then some .tooShort
  else if (countUniqueChars password : Int) < v.options.minDiff then some .tooFewChars
  else if v.options.mustContainDigit ∧ ¬ hasDigit password then some .noDigits
  else if v.options.mustContainSymbol ∧ ¬ hasSymbol password then some .noSymbols
  else if countSystematicChars password > sysLimit (byteLen password) then some .tooSystematic
  else
    match foundInDictionaries v password with
    | some e => some e
    | none => if v.options.checkHIBP then foundInHIBP v.options password else none

/-- Count of runes classified as non-uppercase letters by `Rate`'s loop. -/
def lowerCount (p : Str) : Nat := p.countP (fun c => isLetterChar c && !isUpperChar c)

/-- Count of runes classified as uppercase letters by `Rate`'s loop. -/
def upperCount (p : Str) : Nat := p.countP (fun c => isLetterChar c && isUpperChar c)

/-- Count of runes classified as numbers by `Rate`'s loop (non-letters only,
since the loop tests letterhood first). -/
def numberCount (p : Str) : Nat := p.countP (fun c => !isLetterChar c && isNumberChar c)

/-- Count of runes classified as symbols by `Rate`'s loop: neither letter nor
number. -/
def symbolCount (p : Str) : Nat := p.countP (fun c => !isLetterChar c && !isNumberChar c)

/-- The signed score accumulated by `Rate` before clamping, with `l` the byte
length exactly as in the Go source. -/
def rawScore (p : Str) : Int :=
  let l : Int := byteLen p
  let letters : Int := lowerCount p
  let uLetters : Int := upperCount p
  let numbers : Int := numberCount p
  let symbols : Int := symbolCount p
  let repeats : Int := l - countUniqueChars p
  let systematics : Int := countSystematicChars p
  let n1 : Int := l * 4
  let n2 : Int := if uLetters > 0 then n1 + (l - uLetters) * 2 else n1
  let n3 : Int := if letters > 0 then n2 + (l - letters) * 2 else n2
  let n4 : Int := n3 + numbers * 4 + symbols * 6
  let n5 : Int := if l = letters + uLetters then n4 - (letters + uLetters) else n4
  let n6 : Int := if l = numbers then n5 - numbers * 4 else n5
  n6 - repeats * 4 - systematics * 3

/-- Final clamp of the score to the interval from 0 to 100. -/
def clampScore (n : Int) : Nat := if n < 0 then 0 else if n > 100 then 100 else n.toNat

/-- Embedding of `Validator.Rate`: a rejected password scores 0 with `Check`'s
error; an accepted one gets the clamped composition score. -/
def Rate (v : Validator) (p : Str) : Nat × Option CheckErr :=
  match Check v p with
  | some e => (0, some e)
  | none => (clampScore (rawScore p), none)

/-- The six structural rejection conditions in their fixed evaluation order,
each paired with its error: empty, too short, too few unique characters,
missing digit, missing symbol, too systematic. -/
def checkConditions (v : Validator) (p : Str) : List (Option CheckErr) :=
  [ if trimSpace p = [] then some .empty else none,
    if (byteLen p : Int) < v.options.minLength then some .tooShort else none,
    if (countUniqueChars p : Int) < v.options.minDiff then some .tooFewChars else none,
    if v.options.mustContainDigit ∧ ¬ hasDigit p then some .noDigits else none,
    if v.options.mustContainSymbol ∧ ¬ hasSymbol p then some .noSymbols else none,
    if countSystematicChars p > sysLimit (byteLen p) then some .tooSystematic else none ]

/-- The error of the first failing condition in an ordered condition list. -/
def firstFailing (l : List (Option CheckErr)) : Option CheckErr := l.findSome? id

/-- The rating formula stated by the specification, with every occurrence of
the password length taken as the BYTE length, exactly as `Rate`'s variable `l`
is computed in the source. -/
def specScoreBytes (p : Str) : Int :=
  (byteLen p : Int) * 4
  + (if (upperCount p : Int) > 0 then ((byteLen p : Int) - upperCount p) * 2 else 0)
  + (if (lowerCount p : Int) > 0 then ((byteLen p : Int) - lowerCount p) * 2 else 0)
  + (numberCount p : Int) * 4
  + (symbolCount p : Int) * 6
  - (if (byteLen p : Int) = (lowerCount p : Int) + upperCount p
     then (lowerCount p : Int) + upperCount p else 0)
  - (if (byteLen p : Int) = (numberCount p : Int) then (numberCount p : Int) * 4 else 0)
  - ((byteLen p : Int) - countUniqueChars p) * 4
  - (countSystematicChars p : Int) * 3

/-- The rating formula exactly as the claim words it, over CODE-POINT counts:
every occurrence of the password length is the number of runes.  Written from
the claim's words, to be compared with the byte-length formula the code uses. -/
def specScoreCodePoints (p : Str) : Int :=
  (p.length : Int) * 4
  + (if (upperCount p : Int) > 0 then ((p.length : Int) - upperCount p) * 2 else 0)
  + (if (lowerCount p : Int) > 0 then ((p.length : Int) - lowerCount p) * 2 else 0)
  + (numberCount p : Int) * 4
  + (symbolCount p : Int) * 6
  - (if (p.length : Int) = (lowerCount p : Int) + upperCount p
     then (lowerCount p : Int) + upperCount p else 0)
  - (if (p.length : Int) = (numberCount p : Int) then (numberCount p : Int) * 4 else 0)
  - ((p.length : Int) - countUniqueChars p) * 4
  - (countSystematicChars p : Int) * 3

/-- The per-candidate fuzzy acceptance threshold as the claim words it:
the minimum of half the password length and the configured distance.  Written
from the claim's words, to be compared with the plain configured distance the
code applies. -/
def claimedFuzzyThreshold (pw : Str) (minDist : Int) : Int :=
  min ((byteLen pw : Int) / 2) minDist

/-- Default options of `NewValidator` (negative sentinels force the defaults;
breach checking off, oracle irrelevant). -/
def defaultOpts : Options :=
  { minLength := -1, minDiff := -1, minDist := -1, hashers := [],
    mustContainDigit := false, mustContainSymbol := false,
    checkHIBP := false, hibpOracle := fun _ => .notFound }

/-- Default validator with an empty dictionary source. -/
def defaultValidator : Validator := mkValidator defaultOpts []

/-- Options used by the fuzzy-threshold counterexample: minimum length 4,
minimum distance 3, one four-letter dictionary word. -/
def fuzzyCEOpts : Options :=
  { defaultOpts with minLength := 4, minDiff := 1, minDist := 3 }

/-- Validator of the fuzzy-threshold counterexample, indexing the single word
abcd. -/
def fuzzyCEValidator : Validator := mkValidator fuzzyCEOpts [['a', 'b', 'c', 'd']]

/-- Options of the spec's systematic-sequence example: minimum length 6,
minimum unique count 3. -/
def systematicOpts : Options :=
  { defaultOpts with minLength := 6, minDiff := 3, minDist := 1 }

/-- Validator of the systematic-sequence example, with no dictionary. -/
def systematicValidator : Validator := mkValidator systematicOpts []

/-- Validator holding the reversal of the password `password`, used to
exercise the reversed exact-match path. -/
def reversedHitValidator : Validator :=
  mkValidator defaultOpts [['d', 'r', 'o', 'w', 's', 's', 'a', 'p']]

/-- Accepted multi-byte password used by the rating counterexample: seven
runes, eight UTF-8 bytes, all letters, no repeats beyond the byte/rune gap. -/
def scoreCEPassword : Str := ['é', 'a', 'k', 'q', 'z', 'm', 'w']

/-- A concrete digest function for the hashed-dictionary witnesses: the byte
length of the word followed by its first byte (an injective-enough toy). -/
def lenHasher : Str → List Nat := fun w => byteLen w :: encodeStr w

/-- Options configuring the single toy hasher. -/
def hashedOpts : Options := { defaultOpts with hashers := [lenHasher] }

/-! Helper lemmas about the embedded primitives. -/

/-- UTF-8 encoding distributes over append. -/
theorem encodeStr_append (a b : Str) : encodeStr (a ++ b) = encodeStr a ++ encodeStr b := by
  simp [encodeStr]

/-- Byte length adds over append. -/
theorem byteLen_append (a b : Str) : byteLen (a ++ b) = byteLen a + byteLen b := by
  simp [byteLen, encodeStr_append]

/-- Reversing a string rune-wise preserves its UTF-8 byte length. -/
theorem byteLen_reverse (s : Str) : byteLen s.reverse = byteLen s := by
  induction s with
  | nil => rfl
  | cons c rest ih =>
      have h1 : (c :: rest).reverse = rest.reverse ++ [c] := by simp
      rw [h1, byteLen_append, ih]
      have h2 : (c :: rest) = [c] ++ rest := rfl
      rw [h2, byteLen_append]
      omega

/-- With enough fuel, the edit distance is bounded below by the difference of
the two lengths, in both directions. -/
theorem wfAux_lower (fuel : Nat) :
    ∀ xs ys : List Nat, xs.length + ys.length ≤ fuel →
      ys.length ≤ wfAux fuel xs ys + xs.length ∧
      xs.length ≤ wfAux fuel xs ys + ys.length := by
  induction fuel with
  | zero =>
      intro xs ys h
      match xs, ys with
      | [], ys => simp [wfAux]
      | x :: xs, [] => simp [wfAux]
      | x :: xs, y :: ys => simp at h
  | succ n ih =>
      intro xs ys h
      match xs, ys with
      | [], ys => simp [wfAux]
      | x :: xs, [] => simp [wfAux]
      | x :: xs, y :: ys =>
          simp only [wfAux]
          split
          · have := ih xs ys (by simp at h; omega)
            simp only [List.length_cons]
            omega
          · have h1 := ih xs (y :: ys) (by simp at h ⊢; omega)
            have h2 := ih (x :: xs) ys (by simp at h ⊢; omega)
            have h3 := ih xs ys (by simp at h; omega)
            simp only [List.length_cons] at h1 h2 h3 ⊢
            omega

/-- The modelled Wagner-Fischer distance is at least the length gap. -/
theorem wagnerFischer_lower (xs ys : List Nat) :
    ys.length ≤ wagnerFischer xs ys + xs.length ∧
    xs.length ≤ wagnerFischer xs ys + ys.length :=
  wfAux_lower (xs.length + ys.length) xs ys le_rfl

/-- Membership after a set-insert. -/
theorem mem_insertWord (ws : List Str) (w u : Str) :
    u ∈ insertWord ws w ↔ u ∈ ws ∨ u = w := by
  unfold insertWord
  split
  · constructor
    · exact Or.inl
    · rintro (h | rfl) <;> [exact h; assumption]
  · simp

/-- Membership in the hashed-words accumulator after one word's hashers have
been folded in. -/
theorem mem_hashers_foldl (g : (Str → List Nat) → List Nat × Str) :
    ∀ (hs : List (Str → List Nat)) (acc : List (List Nat × Str)) (e : List Nat × Str),
      e ∈ hs.foldl (fun hw h => g h :: hw) acc ↔ e ∈ acc ∨ ∃ h ∈ hs, e = g h := by
  intro hs
  induction hs with
  | nil => simp
  | cons h0 rest ih =>
      intro acc e
      simp only [List.foldl_cons, ih, List.mem_cons, List.mem_cons]
      constructor
      · rintro ((h | h) | ⟨h', hh', rfl⟩)
        · exact Or.inr ⟨h0, by simp, h⟩
        · exact Or.inl h
        · exact Or.inr ⟨h', by simp [hh'], rfl⟩
      · rintro (h | ⟨h', hh', rfl⟩)
        · exact Or.inl (Or.inr h)
        · rcases hh' with rfl | hh'
          · exact Or.inl (Or.inl rfl)
          · exact Or.inr ⟨h', hh', rfl⟩

/-- A found key yields an entry of the association list with that key. -/
theorem lookupHashed_some (hw : List (List Nat × Str)) (k : List Nat) (w : Str)
    (h : lookupHashed hw k = some w) : ∃ e ∈ hw, e.1 = k ∧ e.2 = w := by
  unfold lookupHashed at h
  split at h
  · rename_i e he
    cases h
    have hp := List.find?_some he
    exact ⟨e, List.mem_of_find?_eq_some he, by simpa using hp, rfl⟩
  · cases h

/-- A present key is found. -/
theorem lookupHashed_isSome (hw : List (List Nat × Str)) (k : List Nat)
    (h : ∃ e ∈ hw, e.1 = k) : ∃ w, lookupHashed hw k = some w := by
  obtain ⟨e, he, hk⟩ := h
  unfold lookupHashed
  split
  · rename_i e' _
    exact ⟨e'.2, rfl⟩
  · rename_i hnone
    have := List.find?_eq_none.mp hnone e he
    simp [hk] at this

/-! Invariants of the dictionary index build. -/

/-- Indexing one word leaves the configuration untouched. -/
theorem indexWord_options (v : Validator) (w : Str) : (indexWord v w).options = v.options := rfl

/-- Indexing a word sequence leaves the configuration untouched. -/
theorem indexDictionaries_options (src : List Str) :
    ∀ v : Validator, (indexDictionaries v src).options = v.options := by
  induction src with
  | nil => intro v; rfl
  | cons w rest ih => intro v; simpa [indexDictionaries] using ih (indexWord v w)

/-- The configuration of a freshly built validator is the normalized options. -/
theorem mkValidator_options (o : Options) (src : List Str) :
    (mkValidator o src).options = normalizeOpts o := by
  simpa [mkValidator] using indexDictionaries_options src _

/-- Membership in the built word set: exactly the normalized source words that
meet the byte-length floor `minLength - minDist`, on top of whatever the
accumulator already held. -/
theorem indexDictionaries_mem_words (src : List Str) :
    ∀ (v : Validator) (w : Str),
      w ∈ (indexDictionaries v src).words ↔
        w ∈ v.words ∨ ∃ s ∈ src, w = normalize s ∧
          (byteLen (normalize s) : Int) ≥ v.options.minLength - v.options.minDist := by
  induction src with
  | nil => intro v w; simp [indexDictionaries]
  | cons u rest ih =>
      intro v w
      rw [indexDictionaries, ih (indexWord v u) w]
      constructor
      · rintro (h | ⟨s, hs, rfl, hlen⟩)
        · rw [indexWord] at h
          simp only at h
          split at h
          · rcases (mem_insertWord _ _ _).mp h with h' | rfl
            · exact Or.inl h'
            · rename_i hge
              exact Or.inr ⟨u, by simp, rfl, hge⟩
          · exact Or.inl h
        · exact Or.inr ⟨s, by simp [hs], rfl, hlen⟩
      · rintro (h | ⟨s, hs, rfl, hlen⟩)
        · left
          rw [indexWord]
          simp only
          split
          · exact (mem_insertWord _ _ _).mpr (Or.inl h)
          · exact h
        · rcases List.mem_cons.mp hs with rfl | hs
          · left
            rw [indexWord]
            simp only
            rw [if_pos hlen]
            exact (mem_insertWord _ _ _).mpr (Or.inr rfl)
          · exact Or.inr ⟨s, hs, rfl, hlen⟩

/-- The built maximum word length is the running maximum of the byte lengths
of all normalized source words. -/
theorem indexDictionaries_maxLen (src : List Str) :
    ∀ v : Validator,
      (indexDictionaries v src).wordsMaxLen =
        src.foldl (fun m s => max m (byteLen (normalize s))) v.wordsMaxLen := by
  induction src with
  | nil => intro v; rfl
  | cons u rest ih =>
      intro v
      rw [indexDictionaries, ih (indexWord v u)]
      have : (indexWord v u).wordsMaxLen = max v.wordsMaxLen (byteLen (normalize u)) := by
        rw [indexWord]
        simp only
        split <;> omega
      rw [this, List.foldl_cons]

/-- Every indexed word is no longer, in bytes, than the recorded maximum. -/
theorem indexDictionaries_words_le (src : List Str) :
    ∀ v : Validator, (∀ w ∈ v.words, byteLen w ≤ v.wordsMaxLen) →
      ∀ w ∈ (indexDictionaries v src).words,
        byteLen w ≤ (indexDictionaries v src).wordsMaxLen := by
  induction src with
  | nil => intro v h; exact h
  | cons u rest ih =>
      intro v h
      refine ih (indexWord v u) ?_
      intro w hw
      have hmax : (indexWord v u).wordsMaxLen = max v.wordsMaxLen (byteLen (normalize u)) := by
        rw [indexWord]; simp only; split <;> omega
      rw [indexWord] at hw
      simp only at hw
      rw [hmax]
      split at hw
      · rcases (mem_insertWord _ _ _).mp hw with h' | rfl
        · exact le_trans (h w h') (le_max_left _ _)
        · exact le_max_right _ _
      · exact le_trans (h w hw) (le_max_left _ _)

/-- Every word of a freshly built index fits under the recorded maximum. -/
theorem mkValidator_words_le (o : Options) (src : List Str) :
    ∀ w ∈ (mkValidator o src).words, byteLen w ≤ (mkValidator o src).wordsMaxLen := by
  refine indexDictionaries_words_le src _ ?_
  intro w hw
  simp at hw

/-- Hashed entries only accumulate: indexing more words never drops one. -/
theorem indexDictionaries_hashed_mono (src : List Str) :
    ∀ (v : Validator) (e : List Nat × Str),
      e ∈ v.hashedWords → e ∈ (indexDictionaries v src).hashedWords := by
  induction src with
  | nil => intro v e h; exact h
  | cons u rest ih =>
      intro v e h
      refine ih (indexWord v u) e ?_
      rw [indexWord]
      simp only
      exact (mem_hashers_foldl _ _ _ _).mpr (Or.inl h)

/-- Every hashed entry of the built index pairs some hasher's digest of a
normalized source word with that word (unless it was already accumulated). -/
theorem indexDictionaries_hashed_mem (src : List Str) :
    ∀ (v : Validator) (e : List Nat × Str),
      e ∈ (indexDictionaries v src).hashedWords →
        e ∈ v.hashedWords ∨
          ∃ h ∈ v.options.hashers, ∃ t ∈ src, e = (hashsum (normalize t) h, normalize t) := by
  induction src with
  | nil => intro v e h; exact Or.inl h
  | cons u rest ih =>
      intro v e h
      rw [indexDictionaries] at h
      rcases ih (indexWord v u) e h with h' | ⟨hf, hhf, t, ht, rfl⟩
      · rw [indexWord] at h'
        simp only at h'
        rcases (mem_hashers_foldl _ _ _ _).mp h' with h'' | ⟨hf, hhf, rfl⟩
        · exact Or.inl h''
        · exact Or.inr ⟨hf, hhf, u, by simp, rfl⟩
      · rw [indexWord_options] at hhf
        exact Or.inr ⟨hf, hhf, t, by simp [ht], rfl⟩

/-- For every configured hasher and source word, the built index holds an
entry keyed by that hasher's digest of the normalized word. -/
theorem indexDictionaries_hashed_key (src : List Str) :
    ∀ (v : Validator), ∀ hf ∈ v.options.hashers, ∀ t ∈ src,
      ∃ e ∈ (indexDictionaries v src).hashedWords, e.1 = hashsum (normalize t) hf := by
  induction src with
  | nil => intro v hf hhf t ht; simp at ht
  | cons u rest ih =>
      intro v hf hhf t ht
      rcases List.mem_cons.mp ht with rfl | ht
      · have hmem : (hashsum (normalize t) hf, normalize t) ∈ (indexWord v t).hashedWords := by
          rw [indexWord]
          simp only
          exact (mem_hashers_foldl _ _ _ _).mpr (Or.inr ⟨hf, hhf, rfl⟩)
        exact ⟨_, indexDictionaries_hashed_mono rest (indexWord v t) _ hmem, rfl⟩
      · exact ih (indexWord v u) hf (by rw [indexWord_options]; exact hhf) t ht

/-- Looking a key up after one word's hashers have been folded in finds that
word exactly when some hasher digests it to the key (the freshest entry sits
at the head, so the word's own entries shadow all older ones), and otherwise
falls through to the older entries. -/
theorem lookupHashed_foldl_hashers (nw : Str) (k : List Nat) :
    ∀ (hs : List (Str → List Nat)) (acc : List (List Nat × Str)),
      lookupHashed (hs.foldl (fun hw h => (hashsum nw h, nw) :: hw) acc) k =
        if hs.any (fun hg => decide (hashsum nw hg = k)) then some nw
        else lookupHashed acc k := by
  intro hs
  induction hs with
  | nil => intro acc; simp
  | cons h0 hs ih =>
      intro acc
      rw [List.foldl_cons, ih]
      have hcons : lookupHashed ((hashsum nw h0, nw) :: acc) k =
          if hashsum nw h0 = k then some nw else lookupHashed acc k := by
        unfold lookupHashed
        rw [List.find?_cons]
        by_cases hk : hashsum nw h0 = k
        · simp [hk]
        · simp [hk]
      rw [hcons]
      by_cases h1 : hs.any (fun hg => decide (hashsum nw hg = k)) = true <;>
        by_cases h2 : hashsum nw h0 = k <;>
          simp [h1, h2]

/-- One build step resolves a hashed key to the word just indexed whenever one
of its digests matches, shadowing all earlier writes, and leaves other keys
untouched: Go map assignment is last-write-wins. -/
theorem lookupHashed_indexWord (v : Validator) (u : Str) (k : List Nat) :
    lookupHashed (indexWord v u).hashedWords k =
      if v.options.hashers.any (fun hg => decide (hashsum (normalize u) hg = k))
      then some (normalize u)
      else lookupHashed v.hashedWords k :=
  lookupHashed_foldl_hashers (normalize u) k v.options.hashers v.hashedWords

/-- Hashed lookup over a whole build is last-write-wins: a key resolves to the
normalized form of the LAST source word any of whose configured digests equals
the key, and falls back to the accumulator when no source word wrote it. -/
theorem lookupHashed_indexDictionaries (k : List Nat) (src : List Str) :
    ∀ v : Validator,
      lookupHashed (indexDictionaries v src).hashedWords k =
        match (src.filter (fun x =>
            v.options.hashers.any (fun hg =>
              decide (hashsum (normalize x) hg = k)))).getLast? with
        | some u => some (normalize u)
        | none => lookupHashed v.hashedWords k := by
  induction src with
  | nil => intro v; rfl
  | cons u rest ih =>
      intro v
      rw [indexDictionaries, ih (indexWord v u)]
      simp only [indexWord_options, lookupHashed_indexWord]
      by_cases hP :
          v.options.hashers.any (fun hg => decide (hashsum (normalize u) hg = k)) = true
      · simp only [List.filter_cons, hP, if_true]
        cases hrest : rest.filter (fun x =>
            v.options.hashers.any (fun hg => decide (hashsum (normalize x) hg = k))) with
        | nil => simp [hP]
        | cons y ys =>
            rw [List.getLast?_cons_cons]
            cases hg : (y :: ys).getLast? with
            | none => exact absurd (List.getLast?_eq_none_iff.mp hg) (by simp)
            | some z => rfl
      · simp [List.filter_cons, hP]

/-- Hashed lookup on a freshly built validator: the accumulator starts empty,
so a key is found exactly when some source word wrote it, and it resolves to
the last such word's normalized form. -/
theorem lookupHashed_mkValidator (o : Options) (src : List Str) (k : List Nat) :
    lookupHashed (mkValidator o src).hashedWords k =
      match (src.filter (fun x =>
          o.hashers.any (fun hg => decide (hashsum (normalize x) hg = k)))).getLast? with
      | some u => some (normalize u)
      | none => none := by
  rw [mkValidator, lookupHashed_indexDictionaries]
  rfl

/-! Shape and exhaustiveness lemmas for the lookup stages. -/

/-- The fuzzy scan comes back empty exactly when no scanned word is within the
threshold of the password or of its reversal. -/
theorem fuzzyScan_eq_none_iff (md : Int) (pw revpw : Str) (ws : List Str) :
    fuzzyScan md pw revpw ws = none ↔
      ∀ w ∈ ws,
        ¬ ((wagnerFischer (encodeStr w) (encodeStr pw) : Int) ≤ md) ∧
        ¬ ((wagnerFischer (encodeStr w) (encodeStr revpw) : Int) ≤ md) := by
  induction ws with
  | nil => simp [fuzzyScan]
  | cons w ws ih =>
      rw [fuzzyScan]
      simp only
      split
      · rename_i h1
        simp only [List.mem_cons]
        constructor
        · intro h; cases h
        · intro h
          exact absurd h1 (h w (Or.inl rfl)).1
      · split
        · rename_i h2
          simp only [List.mem_cons]
          constructor
          · intro h; cases h
          · intro h
            exact absurd h2 (h w (Or.inl rfl)).2
        · rename_i h1 h2
          rw [ih]
          constructor
          · intro h u hu
            rcases List.mem_cons.mp hu with rfl | hu
            · exact ⟨h1, h2⟩
            · exact h u hu
          · intro h u hu
            exact h u (List.mem_cons_of_mem _ hu)

/-- A fuzzy hit is a mangled-dictionary error carrying a scanned word and its
measured distance, which is within the threshold. -/
theorem fuzzyScan_some (md : Int) (pw revpw : Str) (ws : List Str) (e : CheckErr)
    (h : fuzzyScan md pw revpw ws = some e) :
    ∃ w d, e = .mangledDictionary w d ∧ w ∈ ws ∧ (d : Int) ≤ md ∧
      (d = wagnerFischer (encodeStr w) (encodeStr pw) ∨
       d = wagnerFischer (encodeStr w) (encodeStr revpw)) := by
  induction ws with
  | nil => simp [fuzzyScan] at h
  | cons w ws ih =>
      rw [fuzzyScan] at h
      simp only at h
      split at h
      · rename_i h1
        cases h
        exact ⟨w, _, rfl, by simp, h1, Or.inl rfl⟩
      · split at h
        · rename_i h2
          cases h
          exact ⟨w, _, rfl, by simp, h2, Or.inr rfl⟩
        · obtain ⟨u, d, he, hu, hd, hor⟩ := ih h
          exact ⟨u, d, he, List.mem_cons_of_mem _ hu, hd, hor⟩

/-- An exact-stage hit is either a dictionary hit on the password or a
mangled-dictionary hit on its reversal, at distance 0. -/
theorem exactStage_some (v : Validator) (pw revpw : Str) (e : CheckErr)
    (h : exactStage v pw revpw = some e) :
    e = .dictionary pw 0 ∨ e = .mangledDictionary revpw 0 := by
  unfold exactStage at h
  split at h
  · split at h
    · cases h; exact Or.inl rfl
    · split at h
      · cases h; exact Or.inr rfl
      · cases h
  · cases h

/-- A hashed-stage hit is a hashed-dictionary error. -/
theorem hashedStage_some (v : Validator) (pw : Str) (e : CheckErr)
    (h : hashedStage v pw = some e) : ∃ w, e = .hashedDictionary w := by
  unfold hashedStage at h
  split at h
  · split at h
    · cases h; exact ⟨_, rfl⟩
    · cases h
  · cases h

/-- Every dictionary-lookup error is a dictionary, mangled-dictionary or
hashed-dictionary error. -/
theorem foundInDictionaries_some (v : Validator) (s : Str) (e : CheckErr)
    (h : foundInDictionaries v s = some e) :
    (∃ w d, e = .dictionary w d ∨ e = .mangledDictionary w d) ∨
      ∃ w, e = .hashedDictionary w := by
  simp only [foundInDictionaries] at h
  split at h
  · rename_i he
    cases h
    rcases exactStage_some _ _ _ _ he with rfl | rfl
    · exact Or.inl ⟨_, _, Or.inl rfl⟩
    · exact Or.inl ⟨_, _, Or.inr rfl⟩
  · split at h
    · rename_i hh
      cases h
      obtain ⟨w, rfl⟩ := hashedStage_some _ _ _ hh
      exact Or.inr ⟨w, rfl⟩
    · unfold fuzzyStage at h
      split at h
      · obtain ⟨w, d, rfl, _, _, _⟩ := fuzzyScan_some _ _ _ _ _ h
        exact Or.inl ⟨w, d, Or.inr rfl⟩
      · cases h

/-- The breach-oracle wrapper only produces breach errors. -/
theorem foundInHIBP_some (o : Options) (p : Str) (e : CheckErr)
    (h : foundInHIBP o p = some e) :
    e = .breachedPassword ∨ e = .breachCheckFailed := by
  unfold foundInHIBP at h
  split at h <;> first
    | (cases h; exact Or.inl rfl)
    | (cases h; exact Or.inr rfl)
    | cases h

/-! Claim theorems. -/

/-- C2, counterexample: the four-rune password of e-acute characters has
code-point length 4, below the default minimum length 8, and a non-blank
trim, yet `Check` reports too-few-unique-characters rather than `TooShort`,
because the byte length 8 already meets the minimum.  The claim's
code-point-length reading is therefore false on the code. -/
theorem c2_counterexample :
    ((['é', 'é', 'é', 'é'] : Str).length : Int) < defaultValidator.options.minLength
  ∧ trimSpace ['é', 'é', 'é', 'é'] ≠ []
  ∧ Check defaultValidator ['é', 'é', 'é', 'é'] = some CheckErr.tooFewChars
  ∧ Check defaultValidator ['é', 'é', 'é', 'é'] ≠ some CheckErr.tooShort := by
  decide

/-- C2, amended: for every password whose UTF-8 BYTE length is below the
configured minimum length, `Check` returns `TooShort`, regardless of content,
provided the password is not empty or whitespace-only. -/
theorem c2_tooShort_bytes (v : Validator) (p : Str)
    (hne : trimSpace p ≠ []) (hlt : (byteLen p : Int) < v.options.minLength) :
    Check v p = some CheckErr.tooShort := by
  unfold Check
  rw [if_neg hne, if_pos hlt]

/-- C2, witness: the amended theorem applied to a concrete two-letter
password under the default configuration. -/
theorem c2_tooShort_bytes_witness :
    Check defaultValidator ['a', 'b'] = some CheckErr.tooShort :=
  c2_tooShort_bytes defaultValidator ['a', 'b'] (by decide) (by decide)

/-- C3: `Check` returns exactly the error of the first failing condition of
the ordered list empty, too-short, too-few-unique, missing-digit,
missing-symbol, too-systematic; only when all six pass does it consult the
dictionary stages, and only after those the breach oracle, the first hit
short-circuiting everything later. -/
theorem c3_check_order (v : Validator) (p : Str) :
    Check v p =
      match firstFailing (checkConditions v p) with
      | some e => some e
      | none =>
          match foundInDictionaries v p with
          | some e => some e
          | none => if v.options.checkHIBP then foundInHIBP v.options p else none := by
  unfold Check
  simp only [firstFailing, checkConditions, List.findSome?_cons, List.findSome?_nil, id_eq]
  split_ifs with h1 h2 h3 h4 h5 h6 <;> rfl

/-- C4: `Rate` never scores above 100 (scores are naturals, so never below
0 either), and on any password `Check` rejects, `Rate` returns score 0 with
that same error. -/
theorem c4_rate_bounds (v : Validator) (p : Str) :
    (Rate v p).1 ≤ 100 ∧
    ∀ e : CheckErr, Check v p = some e → Rate v p = (0, some e) := by
  constructor
  · unfold Rate
    split
    · simp
    · simp only
      unfold clampScore
      split_ifs <;> omega
  · intro e he
    simp [Rate, he]

/-- C4, witness: the bound and the error propagation at the empty password
under the default configuration. -/
theorem c4_rate_bounds_witness :
    (Rate defaultValidator []).1 ≤ 100 ∧
    Rate defaultValidator [] = (0, some CheckErr.empty) :=
  ⟨(c4_rate_bounds defaultValidator []).1,
   (c4_rate_bounds defaultValidator []).2 CheckErr.empty (by decide)⟩

/-- C5, counterexample: the accepted seven-rune, eight-byte password
e-acute a k q z m w scores 30 under the code (byte length 8 feeds every
length term, and the byte/rune gap counts as a repeated character and breaks
the letters-only condition), while the claim's code-point formula yields 21. -/
theorem c5_counterexample :
    Check defaultValidator scoreCEPassword = none
  ∧ (Rate defaultValidator scoreCEPassword).1 = 30
  ∧ clampScore (specScoreCodePoints scoreCEPassword) = 21
  ∧ (Rate defaultValidator scoreCEPassword).1 ≠
      clampScore (specScoreCodePoints scoreCEPassword) := by
  decide

/-- C5, amended: for every password that passes `Check`, `Rate` computes
exactly the claimed formula with every occurrence of the password length
taken as the UTF-8 byte length (`l` in the source), including in the repeats
term `l - uniqueCount` and in the letters-only and digits-only conditions;
the result is clamped to the interval from 0 to 100.  On all-ASCII passwords
this coincides with the claim's code-point formula. -/
theorem c5_rate_formula_bytes (v : Validator) (p : Str) (h : Check v p = none) :
    Rate v p = (clampScore (specScoreBytes p), none) := by
  have hr : rawScore p = specScoreBytes p := by
    simp only [rawScore, specScoreBytes]
    split_ifs <;> ring
  simp [Rate, h, hr]

/-- C5, witness: the amended formula evaluated on an accepted ASCII
password. -/
theorem c5_rate_formula_bytes_witness :
    Rate defaultValidator ['p', 'a', 's', 's', 'w', 'o', 'r', 'd', '1'] =
      (clampScore (specScoreBytes ['p', 'a', 's', 's', 'w', 'o', 'r', 'd', '1']), none) :=
  c5_rate_formula_bytes defaultValidator ['p', 'a', 's', 's', 'w', 'o', 'r', 'd', '1'] (by decide)

/-- C8: whenever the normalized password fails to decode as hexadecimal, the
hashed-dictionary stage is skipped as a non-match (evaluation proceeds from
the exact stage straight to the fuzzy stage) and no hashed-dictionary error
can be produced; the embedding is a total function, so no panic is possible. -/
theorem c8_hex_failure_skips_hashed (v : Validator) (s : Str)
    (h : hexDecode (normalize s) = none) :
    foundInDictionaries v s =
      (match exactStage v (normalize s) (normalize s).reverse with
       | some e => some e
       | none => fuzzyStage v (normalize s) (normalize s).reverse)
  ∧ ∀ w : Str, foundInDictionaries v s ≠ some (CheckErr.hashedDictionary w) := by
  have hh : hashedStage v (normalize s) = none := by
    unfold hashedStage
    rw [h]
  have hfd : foundInDictionaries v s =
      (match exactStage v (normalize s) (normalize s).reverse with
       | some e => some e
       | none => fuzzyStage v (normalize s) (normalize s).reverse) := by
    simp only [foundInDictionaries, hh]
  refine ⟨hfd, ?_⟩
  intro w hcontra
  rw [hfd] at hcontra
  split at hcontra
  · rename_i e he
    rcases exactStage_some _ _ _ _ he with rfl | rfl <;> simp at hcontra
  · unfold fuzzyStage at hcontra
    split at hcontra
    · obtain ⟨u, d, he, _, _, _⟩ := fuzzyScan_some _ _ _ _ _ hcontra
      simp at he
    · cases hcontra

/-- C8, witness: a password with non-hexadecimal runes under the default
configuration. -/
theorem c8_hex_failure_skips_hashed_witness :
    foundInDictionaries defaultValidator ['z', 'x', 'z', 'x'] =
      (match exactStage defaultValidator (normalize ['z', 'x', 'z', 'x'])
               (normalize ['z', 'x', 'z', 'x']).reverse with
       | some e => some e
       | none => fuzzyStage defaultValidator (normalize ['z', 'x', 'z', 'x'])
                   (normalize ['z', 'x', 'z', 'x']).reverse)
  ∧ ∀ w : Str,
      foundInDictionaries defaultValidator ['z', 'x', 'z', 'x'] ≠
        some (CheckErr.hashedDictionary w) :=
  c8_hex_failure_skips_hashed defaultValidator ['z', 'x', 'z', 'x'] (by decide)

/-- C9: the systematic count of the string 123456 is 5, the tolerance for its
length 6 truncates to 3, and, for every password on which the five earlier
checks pass, `Check` returns `TooSystematic` exactly when the systematic
count exceeds the truncated tolerance `3 + 0.09 * length` (length in bytes,
as the source computes it); in particular the spec's example configuration
rejects 123456 as too systematic. -/
theorem c9_systematic_threshold :
    countSystematicChars ['1', '2', '3', '4', '5', '6'] = 5
  ∧ sysLimit (byteLen ['1', '2', '3', '4', '5', '6']) = 3
  ∧ (∀ (v : Validator) (p : Str),
      trimSpace p ≠ [] →
      ¬ ((byteLen p : Int) < v.options.minLength) →
      ¬ ((countUniqueChars p : Int) < v.options.minDiff) →
      ¬ (v.options.mustContainDigit ∧ ¬ hasDigit p) →
      ¬ (v.options.mustContainSymbol ∧ ¬ hasSymbol p) →
      (Check v p = some CheckErr.tooSystematic ↔
        countSystematicChars p > sysLimit (byteLen p)))
  ∧ Check systematicValidator ['1', '2', '3', '4', '5', '6'] = some CheckErr.tooSystematic := by
  refine ⟨by decide, by decide, ?_, by decide⟩
  intro v p h1 h2 h3 h4 h5
  unfold Check
  rw [if_neg h1, if_neg h2, if_neg h3, if_neg h4, if_neg h5]
  constructor
  · intro h
    by_contra hc
    rw [if_neg hc] at h
    split at h
    · rename_i e he
      rw [Option.some_inj] at h
      subst h
      rcases foundInDictionaries_some v p _ he with ⟨w, d, h' | h'⟩ | ⟨w, h'⟩ <;> simp at h'
    · split at h
      · rcases foundInHIBP_some v.options p _ h with h' | h' <;> simp at h'
      · cases h
  · intro h
    rw [if_pos h]

/-- C9, witness: the conditional part applied to the spec's example
configuration and password, with every earlier check discharged concretely. -/
theorem c9_systematic_threshold_witness :
    Check systematicValidator ['1', '2', '3', '4', '5', '6'] = some CheckErr.tooSystematic ↔
      countSystematicChars ['1', '2', '3', '4', '5', '6'] >
        sysLimit (byteLen ['1', '2', '3', '4', '5', '6']) :=
  c9_systematic_threshold.2.2.1 systematicValidator ['1', '2', '3', '4', '5', '6']
    (by decide) (by decide) (by decide) (by decide) (by decide)

/-- C10: when the reversal of the normalized password is an exact member of
the indexed words while the password itself is not, and the earlier
structural checks pass, `Check` returns a `MangledDictionary` error carrying
the reversed password and distance 0 (the reversed word is indexed, so its
byte length, which equals the password's, is within `wordsMaxLen` and the
exact stage is not skipped). -/
theorem c10_reversed_exact (o : Options) (src : List Str) (p : Str)
    (h1 : trimSpace p ≠ [])
    (h2 : ¬ ((byteLen p : Int) < (mkValidator o src).options.minLength))
    (h3 : ¬ ((countUniqueChars p : Int) < (mkValidator o src).options.minDiff))
    (h4 : ¬ ((mkValidator o src).options.mustContainDigit ∧ ¬ hasDigit p))
    (h5 : ¬ ((mkValidator o src).options.mustContainSymbol ∧ ¬ hasSymbol p))
    (h6 : ¬ (countSystematicChars p > sysLimit (byteLen p)))
    (hpw : normalize p ∉ (mkValidator o src).words)
    (hrev : (normalize p).reverse ∈ (mkValidator o src).words) :
    Check (mkValidator o src) p =
      some (CheckErr.mangledDictionary (normalize p).reverse 0) := by
  unfold Check
  rw [if_neg h1, if_neg h2, if_neg h3, if_neg h4, if_neg h5, if_neg h6]
  have hgate : byteLen (normalize p) ≤ (mkValidator o src).wordsMaxLen := by
    have := mkValidator_words_le o src _ hrev
    rwa [byteLen_reverse] at this
  have hex : exactStage (mkValidator o src) (normalize p) (normalize p).reverse =
      some (CheckErr.mangledDictionary (normalize p).reverse 0) := by
    unfold exactStage
    rw [if_pos hgate, if_neg hpw, if_pos hrev]
  simp only [foundInDictionaries, hex]

/-- C10, witness: the validator indexing the word drowssap flags the password
password as a mangled dictionary hit at distance 0. -/
theorem c10_reversed_exact_witness :
    Check reversedHitValidator ['p', 'a', 's', 's', 'w', 'o', 'r', 'd'] =
      some (CheckErr.mangledDictionary
        (normalize ['p', 'a', 's', 's', 'w', 'o', 'r', 'd']).reverse 0) :=
  c10_reversed_exact defaultOpts [['d', 'r', 'o', 'w', 's', 's', 'a', 'p']]
    ['p', 'a', 's', 's', 'w', 'o', 'r', 'd']
    (by decide) (by decide) (by decide) (by decide) (by decide) (by decide)
    (by decide) (by decide)

/-- C7: the exact lookup is skipped (evaluation falls through to the hashed
and fuzzy stages) whenever the password is longer in bytes than the longest
indexed word; an exact hit is returned before any fuzzy scan; the fuzzy scan
runs only under the gate `len(pw) <= wordsMaxLen + minDist`; and on a built
index the pruning is correctness-preserving: past the gate even a full scan
of the indexed words finds nothing within the threshold. -/
theorem c7_gates_and_pruning :
    (∀ (v : Validator) (s : Str), byteLen (normalize s) > v.wordsMaxLen →
        foundInDictionaries v s =
          (match hashedStage v (normalize s) with
           | some e => some e
           | none => fuzzyStage v (normalize s) (normalize s).reverse))
  ∧ (∀ (v : Validator) (s : Str) (e : CheckErr),
        exactStage v (normalize s) (normalize s).reverse = some e →
        foundInDictionaries v s = some e)
  ∧ (∀ (v : Validator) (pw revpw : Str),
        (byteLen pw : Int) > (v.wordsMaxLen : Int) + v.options.minDist →
        fuzzyStage v pw revpw = none)
  ∧ (∀ (o : Options) (src : List Str) (s : Str),
        (byteLen (normalize s) : Int) >
            ((mkValidator o src).wordsMaxLen : Int) + (mkValidator o src).options.minDist →
        fuzzyScan (mkValidator o src).options.minDist (normalize s) (normalize s).reverse
          (mkValidator o src).words = none) := by
  refine ⟨?_, ?_, ?_, ?_⟩
  · intro v s h
    have hex : exactStage v (normalize s) (normalize s).reverse = none := by
      unfold exactStage
      rw [if_neg (Nat.not_le.mpr h)]
    simp only [foundInDictionaries, hex]
  · intro v s e h
    simp only [foundInDictionaries, h]
  · intro v pw revpw h
    unfold fuzzyStage
    rw [if_neg (not_le.mpr h)]
  · intro o src s h
    rw [fuzzyScan_eq_none_iff]
    intro w hw
    have hwle := mkValidator_words_le o src w hw
    have e1 : (encodeStr w).length = byteLen w := rfl
    constructor
    · intro hle
      have hb := (wagnerFischer_lower (encodeStr w) (encodeStr (normalize s))).1
      have e2 : (encodeStr (normalize s)).length = byteLen (normalize s) := rfl
      rw [e1, e2] at hb
      omega
    · intro hle
      have hb := (wagnerFischer_lower (encodeStr w) (encodeStr (normalize s).reverse)).1
      have e2 : (encodeStr (normalize s).reverse).length = byteLen (normalize s) := by
        show byteLen (normalize s).reverse = byteLen (normalize s)
        exact byteLen_reverse (normalize s)
      rw [e1, e2] at hb
      omega

/-- C7, witness: at a 12-byte password against a dictionary whose longest
word has 4 bytes and distance 3, the exact stage is skipped, the fuzzy stage
is gated off, and the full scan also finds nothing; separately, an exact hit
(the reversed word drowssap) short-circuits the lookup. -/
theorem c7_gates_and_pruning_witness :
    (foundInDictionaries fuzzyCEValidator
        ['l', 'o', 'n', 'g', 'p', 'a', 's', 's', 'w', 'o', 'r', 'd'] =
      (match hashedStage fuzzyCEValidator
               (normalize ['l', 'o', 'n', 'g', 'p', 'a', 's', 's', 'w', 'o', 'r', 'd']) with
       | some e => some e
       | none => fuzzyStage fuzzyCEValidator
           (normalize ['l', 'o', 'n', 'g', 'p', 'a', 's', 's', 'w', 'o', 'r', 'd'])
           (normalize ['l', 'o', 'n', 'g', 'p', 'a', 's', 's', 'w', 'o', 'r', 'd']).reverse))
  ∧ foundInDictionaries reversedHitValidator ['p', 'a', 's', 's', 'w', 'o', 'r', 'd'] =
      some (CheckErr.mangledDictionary
        (normalize ['p', 'a', 's', 's', 'w', 'o', 'r', 'd']).reverse 0)
  ∧ fuzzyStage fuzzyCEValidator
      (normalize ['l', 'o', 'n', 'g', 'p', 'a', 's', 's', 'w', 'o', 'r', 'd'])
      (normalize ['l', 'o', 'n', 'g', 'p', 'a', 's', 's', 'w', 'o', 'r', 'd']).reverse = none
  ∧ fuzzyScan fuzzyCEValidator.options.minDist
      (normalize ['l', 'o', 'n', 'g', 'p', 'a', 's', 's', 'w', 'o', 'r', 'd'])
      (normalize ['l', 'o', 'n', 'g', 'p', 'a', 's', 's', 'w', 'o', 'r', 'd']).reverse
      fuzzyCEValidator.words = none :=
  ⟨c7_gates_and_pruning.1 fuzzyCEValidator _ (by decide),
   c7_gates_and_pruning.2.1 reversedHitValidator _ _ (by decide),
   c7_gates_and_pruning.2.2.1 fuzzyCEValidator _ _ (by decide),
   c7_gates_and_pruning.2.2.2 fuzzyCEOpts [['a', 'b', 'c', 'd']] _ (by decide)⟩

/-- C1, counterexample: with minimum distance 3 and the single indexed word
abcd, the password ax is rejected as a mangled dictionary hit at measured
distance 3, even though the claimed per-candidate threshold
`min(len(pw)/2, minDistance) = min(1, 3) = 1` admits neither the distance to
ax (3) nor the distance to its reversal xa (4).  The code compares against
the configured minimum distance alone. -/
theorem c1_counterexample :
    foundInDictionaries fuzzyCEValidator ['a', 'x'] =
      some (CheckErr.mangledDictionary ['a', 'b', 'c', 'd'] 3)
  ∧ ['a', 'b', 'c', 'd'] ∈ fuzzyCEValidator.words
  ∧ claimedFuzzyThreshold (normalize ['a', 'x']) fuzzyCEValidator.options.minDist = 1
  ∧ ¬ ((wagnerFischer (encodeStr ['a', 'b', 'c', 'd'])
          (encodeStr (normalize ['a', 'x'])) : Int) ≤
        claimedFuzzyThreshold (normalize ['a', 'x']) fuzzyCEValidator.options.minDist)
  ∧ ¬ ((wagnerFischer (encodeStr ['a', 'b', 'c', 'd'])
          (encodeStr (normalize ['a', 'x']).reverse) : Int) ≤
        claimedFuzzyThreshold (normalize ['a', 'x']) fuzzyCEValidator.options.minDist) := by
  decide

/-- C1, amended: the per-candidate acceptance threshold of the fuzzy matcher
is the configured minimum distance alone (no `len(pw)/2` component): when
neither exact membership nor the hashed lookup fires, a `MangledDictionary`
rejection is produced exactly when some indexed word is within the configured
minimum distance of the normalized password or of its reversal (the length
gate loses no such word, by C7's pruning argument). -/
theorem c1_threshold_is_minDist (o : Options) (src : List Str) (s : Str)
    (hpw : normalize s ∉ (mkValidator o src).words)
    (hrev : (normalize s).reverse ∉ (mkValidator o src).words)
    (hhash : hashedStage (mkValidator o src) (normalize s) = none) :
    (∃ w d, foundInDictionaries (mkValidator o src) s =
        some (CheckErr.mangledDictionary w d)) ↔
      ∃ w ∈ (mkValidator o src).words,
        ((wagnerFischer (encodeStr w) (encodeStr (normalize s)) : Int) ≤
            (mkValidator o src).options.minDist ∨
         (wagnerFischer (encodeStr w) (encodeStr (normalize s).reverse) : Int) ≤
            (mkValidator o src).options.minDist) := by
  have hex : exactStage (mkValidator o src) (normalize s) (normalize s).reverse = none := by
    unfold exactStage
    split_ifs <;> rfl
  have hfd : foundInDictionaries (mkValidator o src) s =
      fuzzyStage (mkValidator o src) (normalize s) (normalize s).reverse := by
    simp only [foundInDictionaries, hex, hhash]
  rw [hfd]
  unfold fuzzyStage
  split
  · constructor
    · rintro ⟨w, d, hw⟩
      obtain ⟨u, d', he, hu, hd, hor⟩ := fuzzyScan_some _ _ _ _ _ hw
      rw [CheckErr.mangledDictionary.injEq] at he
      obtain ⟨rfl, rfl⟩ := he
      rcases hor with rfl | rfl
      · exact ⟨w, hu, Or.inl hd⟩
      · exact ⟨w, hu, Or.inr hd⟩
    · rintro ⟨w, hw, hor⟩
      cases hscan : fuzzyScan (mkValidator o src).options.minDist (normalize s)
          (normalize s).reverse (mkValidator o src).words with
      | none =>
          exfalso
          have := (fuzzyScan_eq_none_iff _ _ _ _).mp hscan w hw
          tauto
      | some e =>
          obtain ⟨u, d, rfl, _, _, _⟩ := fuzzyScan_some _ _ _ _ _ hscan
          exact ⟨u, d, rfl⟩
  · rename_i hgate
    rw [not_le] at hgate
    constructor
    · rintro ⟨w, d, hw⟩
      cases hw
    · rintro ⟨w, hw, hor⟩
      exfalso
      have hwle := mkValidator_words_le o src w hw
      have e1 : (encodeStr w).length = byteLen w := rfl
      rcases hor with hle | hle
      · have hb := (wagnerFischer_lower (encodeStr w) (encodeStr (normalize s))).1
        have e2 : (encodeStr (normalize s)).length = byteLen (normalize s) := rfl
        rw [e1, e2] at hb
        omega
      · have hb := (wagnerFischer_lower (encodeStr w) (encodeStr (normalize s).reverse)).1
        have e2 : (encodeStr (normalize s).reverse).length = byteLen (normalize s) := by
          show byteLen (normalize s).reverse = byteLen (normalize s)
          exact byteLen_reverse (normalize s)
        rw [e1, e2] at hb
        omega

/-- C1, witness: the amended equivalence instantiated at the counterexample
configuration, producing the concrete mangled-dictionary rejection of ax from
the indexed word abcd at the configured distance 3. -/
theorem c1_threshold_is_minDist_witness :
    ∃ w d, foundInDictionaries fuzzyCEValidator ['a', 'x'] =
        some (CheckErr.mangledDictionary w d) :=
  (c1_threshold_is_minDist fuzzyCEOpts [['a', 'b', 'c', 'd']] ['a', 'x']
      (by decide) (by decide) (by decide)).mpr
    ⟨['a', 'b', 'c', 'd'], by decide, Or.inl (by decide)⟩

/-- C6, counterexample: indexing the two-rune, three-byte word composed of
e-acute and a records `wordsMaxLen = 3`, its BYTE length, not the
character count 2 the claim states. -/
theorem c6_counterexample :
    (mkValidator defaultOpts [['é', 'a']]).wordsMaxLen = 3
  ∧ (normalize ['é', 'a']).length = 2
  ∧ (mkValidator defaultOpts [['é', 'a']]).wordsMaxLen ≠ (normalize ['é', 'a']).length := by
  decide

/-- C6, amended: after the build, `words` holds exactly the normalized source
words whose BYTE length meets the floor `minLength - minDist` (both taken
from the normalized options); `wordsMaxLen` is the running maximum of the
BYTE lengths of all normalized source words; for every configured hasher and
source word, the digest of the normalized word is present as a key in
`hashedWords` and maps to the LAST normalized word written with that digest,
i.e. the normalized form of the last source word any of whose configured
digests equals the key (Go map assignment is last-write-wins); and whenever
no colliding digest exists, that is the word itself. -/
theorem c6_index_bytes (o : Options) (src : List Str) :
    (∀ w : Str, w ∈ (mkValidator o src).words ↔
        ∃ s ∈ src, w = normalize s ∧
          (byteLen (normalize s) : Int) ≥
            (normalizeOpts o).minLength - (normalizeOpts o).minDist)
  ∧ (mkValidator o src).wordsMaxLen =
      src.foldl (fun m s => max m (byteLen (normalize s))) 0
  ∧ (∀ hf ∈ o.hashers, ∀ t ∈ src,
      ∃ u : Str,
        (src.filter (fun x => o.hashers.any (fun hg =>
            decide (hashsum (normalize x) hg = hashsum (normalize t) hf)))).getLast? =
          some u ∧
        u ∈ src ∧
        o.hashers.any (fun hg =>
            decide (hashsum (normalize u) hg = hashsum (normalize t) hf)) = true ∧
        lookupHashed (mkValidator o src).hashedWords (hashsum (normalize t) hf) =
          some (normalize u))
  ∧ (∀ hf ∈ o.hashers, ∀ t ∈ src,
      (∀ x ∈ src, ∀ hg ∈ o.hashers,
          hashsum (normalize x) hg = hashsum (normalize t) hf →
          normalize x = normalize t) →
      lookupHashed (mkValidator o src).hashedWords (hashsum (normalize t) hf) =
        some (normalize t)) := by
  have key : ∀ hf ∈ o.hashers, ∀ t ∈ src,
      ∃ u : Str,
        (src.filter (fun x => o.hashers.any (fun hg =>
            decide (hashsum (normalize x) hg = hashsum (normalize t) hf)))).getLast? =
          some u ∧
        u ∈ src ∧
        o.hashers.any (fun hg =>
            decide (hashsum (normalize u) hg = hashsum (normalize t) hf)) = true ∧
        lookupHashed (mkValidator o src).hashedWords (hashsum (normalize t) hf) =
          some (normalize u) := by
    intro hf hhf t ht
    have hPt : (o.hashers.any (fun hg =>
        decide (hashsum (normalize t) hg = hashsum (normalize t) hf))) = true :=
      List.any_eq_true.mpr ⟨hf, hhf, by simp⟩
    have hne : src.filter (fun x => o.hashers.any (fun hg =>
        decide (hashsum (normalize x) hg = hashsum (normalize t) hf))) ≠ [] := by
      intro hnil
      have hmem : t ∈ src.filter (fun x => o.hashers.any (fun hg =>
          decide (hashsum (normalize x) hg = hashsum (normalize t) hf))) :=
        List.mem_filter.mpr ⟨ht, hPt⟩
      rw [hnil] at hmem
      simp at hmem
    have hlast := List.getLast?_eq_getLast_of_ne_nil hne
    have humem := List.mem_filter.mp (List.getLast_mem hne)
    refine ⟨_, hlast, humem.1, humem.2, ?_⟩
    rw [lookupHashed_mkValidator, hlast]
  refine ⟨?_, ?_, key, ?_⟩
  · intro w
    rw [mkValidator, indexDictionaries_mem_words]
    simp
  · rw [mkValidator, indexDictionaries_maxLen]
  · intro hf hhf t ht hninj
    obtain ⟨u, hlast, husrc, hPu, hlook⟩ := key hf hhf t ht
    obtain ⟨hg, hgmem, hdec⟩ := List.any_eq_true.mp hPu
    rw [hlook, hninj u husrc hg hgmem (of_decide_eq_true hdec)]

/-- C6, witness: with the single toy hasher configured and no colliding
digest, the digest of the indexed word ab resolves to that word itself. -/
theorem c6_index_bytes_witness :
    lookupHashed (mkValidator hashedOpts [['a', 'b']]).hashedWords
        (hashsum (normalize ['a', 'b']) lenHasher) = some (normalize ['a', 'b']) :=
  (c6_index_bytes hashedOpts [['a', 'b']]).2.2.2 lenHasher (by simp [hashedOpts])
    ['a', 'b'] (by simp) (by decide)

end Crunchy

